import Mathlib

/-!
Verification of the LocalPersona agent (src/main.py).

The program is embedded shallowly: every piece of text is a `List Char`
(obtained from Lean string literals via `String.data`), Python string
operations are modelled by executable functions on `List Char`, and the
two external collaborators (the operating-system shell and the HTTP
model backend) are modelled as explicit outcome values passed to the
embedded functions, exactly at the call sites where the Python code
hands control to them.

Python conventions reproduced here:
 - `needle in haystack` on strings is substring containment
   (`containsSub`);
 - `str.lower()` is per-character lowercasing (ASCII fragment,
   `asciiLower`);
 - `str.strip()` removes leading and trailing whitespace
   (`pystrip`, whitespace being the six ASCII whitespace characters);
 - truthiness of a string is non-emptiness.
-/

set_option maxRecDepth 20000

/-- The six ASCII whitespace characters recognised by Python's
`str.strip`, `str.isspace` and the regex class `\s` (ASCII fragment). -/
def isSpaceP (c : Char) : Bool :=
  c = ' ' || c = '\t' || c = '\n' || c = '\r' || c = '\x0b' || c = '\x0c'

/-- ASCII lowercasing of one character, modelling Python `str.lower`
on the ASCII fragment. -/
def asciiLowerChar (c : Char) : Char :=
  if 'A' ≤ c && c ≤ 'Z' then Char.ofNat (c.toNat + 32) else c

/-- Python `str.lower` (ASCII fragment). -/
def asciiLower (s : List Char) : List Char := s.map asciiLowerChar

/-- Python substring containment `p in s`. -/
def containsSub (p : List Char) : List Char → Bool
  | [] => p.isPrefixOf []
  | c :: rest => p.isPrefixOf (c :: rest) || containsSub p rest

/-- Number of (possibly overlapping) start positions at which `p`
occurs in the list. -/
def countOccur (p : List Char) : List Char → Nat
  | [] => if p.isPrefixOf [] then 1 else 0
  | c :: rest => (if p.isPrefixOf (c :: rest) then 1 else 0) + countOccur p rest

/-- Remove trailing Python whitespace. -/
def stripTrailing (s : List Char) : List Char :=
  (s.reverse.dropWhile isSpaceP).reverse

/-- Python `str.strip()`: remove leading and trailing whitespace. -/
def pystrip (s : List Char) : List Char :=
  stripTrailing (s.dropWhile isSpaceP)

/-! ## Knowledge registry and Context Selector (src/main.py lines 14-34, 73-87) -/

/-- One value of the `KNOWLEDGE_BASE` dictionary: a description, a
trigger list and the body text. -/
structure KnowledgeData where
  description : List Char
  triggers : List (List Char)
  content : List Char

/-- A registry: the insertion-ordered entries of a Python dict mapping
entry names to their data. -/
abbrev Registry := List (List Char × KnowledgeData)

/-- The body text of the single `BashScriptMaster` entry, transcribed
from the triple-quoted literal in src/main.py lines 21-32. -/
def bashContent : List Char :=
  ("\n### SPECIALIZED CONTEXT: PROFESSIONAL BASH SCRIPTING ###\n\n"
    ++ "# ASSERTIVE CONTEXT: PROFESSIONAL BASH SCRIPTING\n"
    ++ "- **Strict Mode:** Every script suggested must start with `set -euo pipefail` to ensure immediate failure on errors or undefined variables.\n"
    ++ "- **Portability:** Use `#!/usr/bin/env bash` for the shebang to ensure the script finds the bash binary in the user\x27s PATH.\n"
    ++ "- **Syntax:** - Always use `[[ ]]` for tests instead of `[ ]`.\n"
    ++ "  - Prefer `$(...)` over backticks for command substitution.\n"
    ++ "  - Quote all variables (e.g., `\"$VAR\"`) to prevent word splitting and globbing.\n"
    ++ "- **Functionality:** Group logic into functions. Use `local` for all function-scoped variables to avoid namespace pollution.\n"
    ++ "- **Performance:** For large file processing, prefer `awk` or `sed` over pure bash loops to maintain efficiency.\n").data

/-- The trigger keywords of the `BashScriptMaster` entry
(src/main.py line 20). -/
def bashTriggers : List (List Char) :=
  ["bash".data, "shell".data, "script".data, "loop".data, "variable".data,
   "pipe".data, "sed".data, "awk".data, "grep".data, "automation".data]

/-- The embedded `KNOWLEDGE_BASE` dictionary (src/main.py lines 17-34). -/
def KNOWLEDGE_BASE : Registry :=
  [("BashScriptMaster".data,
    { description :=
        "Advanced shell scripting best practices and automation logic.".data
      triggers := bashTriggers
      content := bashContent })]

/-- `ContextManager.get_relevant_context` (src/main.py lines 77-87):
lowercase the input, then for each registry entry in order append
`"\n" ++ content ++ "\n"` when some trigger is a substring of the
lowered input.  The registry the Python code reads from the global
`KNOWLEDGE_BASE` is passed explicitly. -/
def get_relevant_context (kb : Registry) (user_input : List Char) : List Char :=
  let input_lower := asciiLower user_input
  kb.foldl
    (fun disclosed_text e =>
      if e.2.triggers.any (fun trigger => containsSub trigger input_lower) then
        disclosed_text ++ ('\n' :: e.2.content ++ ['\n'])
      else disclosed_text)
    []

/-- Concatenation of a list of texts. -/
def catAll : List (List Char) → List Char
  | [] => []
  | x :: r => x ++ catAll r

/-- A two-entry registry used to exercise the selector's loop on
inputs matching more than one entry (the embedded registry has a
single entry, so its premise can never arise there). -/
def kbTwo : Registry :=
  [("alpha".data, ⟨"first".data, ["aa".data], "BODYA".data⟩),
   ("beta".data, ⟨"second".data, ["bb".data], "BODYB".data⟩)]

/-! ## Command Executor (src/main.py lines 38-69) -/

/-- Outcome of handing a command to the operating-system shell via
`subprocess.run(command, shell=True, capture_output=True, text=True,
timeout=30)`: either the process completed with captured stdout,
stderr and a return code, or the 30-second timeout expired
(`subprocess.TimeoutExpired`), or `subprocess.run` raised some other
exception carrying a message. -/
inductive ShellOutcome where
  | completed (stdout stderr : List Char) (returncode : Int)
  | timedOut
  | raisedOther (msg : List Char)

/-- The two deny-listed literals of src/main.py line 45. -/
def denyList : List (List Char) :=
  ["rm -rf /".data, ":()\x7b :|:& \x7d;:".data]

/-- Result text for a deny-list hit (src/main.py line 46). -/
def blockedMsg : List Char :=
  "Error: High-risk command blocked by safety filter.".data

/-- Result text for a non-zero exit (src/main.py line 61). -/
def execErrMsg (returncode : Int) (errors : List Char) : List Char :=
  "Execution Error (Exit Code ".data ++ (toString returncode).data
    ++ "):\n".data ++ errors

/-- Result text for a zero exit with whitespace-only stdout
(src/main.py line 64). -/
def noOutputMsg (errors : List Char) : List Char :=
  "Command executed successfully (no output). Stderr: ".data ++ errors

/-- Result text for a timeout (src/main.py line 67). -/
def timeoutMsg : List Char :=
  "Error: Command timed out after 30 seconds.".data

/-- `TerminalTool.execute` (src/main.py lines 42-69).  The shell is
external, so its outcome is an explicit argument; the returned flag
records whether the shell was invoked at all (true exactly when
control reached the `subprocess.run` call).  The deny-list check is
Python `x in command` substring containment; on a completed run a
non-zero return code yields the error text with the code and stderr,
a zero return code yields the stdout when it has a non-whitespace
character (`output.strip()` truthiness) and the neutral no-output
text otherwise. -/
def execute (command : List Char) (outcome : ShellOutcome) : List Char × Bool :=
  if denyList.any (fun x => containsSub x command) then
    (blockedMsg, false)
  else
    match outcome with
    | .completed stdout stderr returncode =>
        (if returncode ≠ 0 then execErrMsg returncode stderr
         else if (pystrip stdout).isEmpty then noOutputMsg stderr
         else stdout, true)
    | .timedOut => (timeoutMsg, true)
    | .raisedOther msg => ("Error executing command: ".data ++ msg, true)

/-! ## Action Parser (src/main.py lines 182-185)

The code runs `re.search(r'\[\[EXEC:\s*(.*?)\s*\]\]', response,
re.DOTALL)` and, on a match, takes `match.group(1).strip()`.  The
functions below implement that search: scan left to right for the
literal `[[EXEC:`; after it, greedily skip whitespace; then grow the
lazy group one character at a time until the remainder of the pattern
(`\s*\]\]`) matches; with `re.DOTALL` the group may span newlines.
If the tail never matches, the scan resumes at the next position. -/

/-- The opening marker literal `[[EXEC:` (7 characters). -/
def execMark : List Char := "[[EXEC:".data

/-- The closing marker literal `]]`. -/
def closeMark : List Char := "]]".data

/-- Does `\s*\]\]` match a prefix of the text?  True exactly when some
run of whitespace followed by `]]` starts the text. -/
def trailingMatch : List Char → Bool
  | [] => false
  | c :: rest => closeMark.isPrefixOf (c :: rest) || (isSpaceP c && trailingMatch rest)

/-- The lazy group `(.*?)` followed by `\s*\]\]`: return the shortest
prefix after which `trailingMatch` succeeds, or `none` if it never
does. -/
def lazyGrab : List Char → Option (List Char)
  | [] => none
  | c :: rest =>
      if trailingMatch (c :: rest) then some []
      else (lazyGrab rest).map (fun p => c :: p)

/-- The part of the pattern after the literal `[[EXEC:`:
`\s*(.*?)\s*\]\]` applied at the current position, returning the
group. -/
def matchAfter (t : List Char) : Option (List Char) :=
  lazyGrab (t.dropWhile isSpaceP)

/-- `re.search` of the whole pattern: try each start position from the
left; at a position starting with `[[EXEC:`, try the rest of the
pattern after it, and on failure fall through to the next start
position. -/
def findExec : List Char → Option (List Char)
  | [] => none
  | c :: rest =>
      if execMark.isPrefixOf (c :: rest) then
        match matchAfter (List.drop 7 (c :: rest)) with
        | some p => some p
        | none => findExec rest
      else findExec rest

/-- The action parser of src/main.py lines 182-185: the regex search
followed by `.strip()` on the captured group; `none` when the search
fails. -/
def parseAction (s : List Char) : Option (List Char) :=
  (findExec s).map pystrip

/-- A well-formed marker pair exists somewhere in the text: an
occurrence of `[[EXEC:` with an occurrence of `]]` after it. -/
def hasMarkerPair : List Char → Bool
  | [] => false
  | c :: rest =>
      (execMark.isPrefixOf (c :: rest) && containsSub closeMark (List.drop 7 (c :: rest)))
        || hasMarkerPair rest

/-! ## Model backend client `AgentLLM.chat` (src/main.py lines 89-110)

The HTTP layer (`requests.post`, `Response.raise_for_status`,
`Response.json`) is an external collaborator; its outcome is passed
explicitly.  `requests.post` either raises
`requests.exceptions.ConnectionError` or produces a response with a
status code, a reason phrase, a final URL and a body.
`raise_for_status` raises `HTTPError` exactly for status codes in
[400, 600), with the documented message
`"<code> Client Error: <reason> for url: <url>"` for 4xx and
`"<code> Server Error: <reason> for url: <url>"` for 5xx.  Extracting
`json()['choices'][0]['message']['content']` either yields the
generated text or raises an exception carrying a message (JSON decode
error, key error, ...).  Every exception other than `ConnectionError`
is caught by the generic handler and rendered as
`"Error: " ++ str(e)`. -/

/-- Body of an HTTP response as seen through the extraction path
`.json()['choices'][0]['message']['content']`: either the content
string, or an exception with message `excMsg` raised while decoding
or indexing. -/
inductive RespBody where
  | valid (content : List Char)
  | invalid (excMsg : List Char)

/-- Outcome of the `requests.post` call. -/
inductive PostOutcome where
  | connectionFailure
  | response (status : Nat) (reason url : List Char) (body : RespBody)

/-- The message of the `HTTPError` raised by `raise_for_status`,
modelled from the requests library's documented format. -/
def httpErrStr (status : Nat) (reason url : List Char) : List Char :=
  (toString status).data
    ++ (if status < 500 then " Client Error: ".data else " Server Error: ".data)
    ++ reason ++ " for url: ".data ++ url

/-- The fixed text returned on `ConnectionError` (src/main.py line 108). -/
def connErrMsg : List Char :=
  "Error: Could not connect to LLM. Is it running on localhost:8080?".data

/-- The URL the client posts to (src/main.py line 11). -/
def apiUrl : List Char := "http://localhost:8080/v1/chat/completions".data

/-- The message of the JSON decode error raised by `Response.json` on
a body that is not JSON, modelled from the json library's documented
format. -/
def jsonDecodeMsg : List Char := "Expecting value: line 1 column 1 (char 0)".data

/-- `AgentLLM.chat` (src/main.py lines 93-110), as a function of the
HTTP outcome.  A connection failure returns the fixed text; a status
in [400, 600) makes `raise_for_status` raise, rendered as
`"Error: " ++ message` by the generic handler; otherwise the body is
decoded, a well-formed body returning its content and a malformed one
raising, rendered the same way. -/
def chat (o : PostOutcome) : List Char :=
  match o with
  | .connectionFailure => connErrMsg
  | .response status reason url body =>
      if 400 ≤ status ∧ status < 600 then
        "Error: ".data ++ httpErrStr status reason url
      else
        match body with
        | .valid content => content
        | .invalid excMsg => "Error: ".data ++ excMsg

/-! ## Session Loop (src/main.py lines 114-211) -/

/-- Message roles used by the conversation. -/
inductive Role where
  | system
  | user
  | assistant
deriving DecidableEq, Repr

/-- A chat message `{"role": ..., "content": ...}`. -/
structure Message where
  role : Role
  content : List Char
deriving DecidableEq, Repr

/-- The base system prompt (src/main.py lines 118-128, adjacent
string literals concatenated by Python). -/
def base_system_prompt : List Char :=
  ("You are an Advanced Linux Automation Agent. "
    ++ "You have access to a local terminal.\n\n"
    ++ "**TOOL USE:**\n"
    ++ "To execute a command, you MUST use this exact format:\n"
    ++ "[[EXEC: <command>]]\n\n"
    ++ "**RULES:**\n"
    ++ "1. When you execute a command, stop generating text immediately. Wait for the user to provide the Output.\n"
    ++ "2. Analyze the Output before responding to the user.\n"
    ++ "3. If the user asks for a script, strictly follow the specialized context guidelines provided dynamically.").data

/-- The system prompt composed for one outer turn (src/main.py lines
149-155): the base prompt, extended with the active-knowledge block
exactly when the retrieved context is non-empty (Python string
truthiness). -/
def currentSystemMessage (user_input : List Char) : List Char :=
  let specialized_context := get_relevant_context KNOWLEDGE_BASE user_input
  if specialized_context.isEmpty then base_system_prompt
  else
    base_system_prompt ++ "\n\n--- ACTIVE KNOWLEDGE ---\n".data
      ++ specialized_context

/-- The start of one outer turn (src/main.py lines 149-168): build the
working transcript as the fresh system message, then the persisted
history, then the new user message; append the user message to the
persisted history.  Returns (working transcript, new persisted
history). -/
def turnSetup (history : List Message) (user_input : List Char) :
    List Message × List Message :=
  let messages := ⟨Role.system, currentSystemMessage user_input⟩
      :: (history ++ [⟨Role.user, user_input⟩])
  (messages, history ++ [⟨Role.user, user_input⟩])

/-- The denial observation fed back when the human does not confirm
(src/main.py lines 196, 201). -/
def denialObs : List Char :=
  "COMMAND OUTPUT:\n".data ++ "User denied execution.".data

/-- State of the inner agentic cycle: the persisted history and the
working transcript. -/
structure InnerState where
  history : List Message
  messages : List Message
deriving DecidableEq, Repr

/-- One iteration of the inner agentic cycle (src/main.py lines
171-211), as a function of the model's response, the human's
confirmation input and the shell outcome (all external).  Returns the
new state, whether the cycle continues with another model call, and
whether the Command Executor (`terminal.execute`) was invoked.  The
raw response is appended to both the history and the transcript; when
a directive parses, the confirmation input is lowercased and compared
with "y": on "y" the executor runs and its result is wrapped as a
user-role observation; otherwise the fixed denial text is wrapped the
same way; both observation variants go to the transcript only. -/
def innerStep (st : InnerState) (response confirm : List Char)
    (outcome : ShellOutcome) : InnerState × Bool × Bool :=
  let h := st.history ++ [⟨Role.assistant, response⟩]
  let m := st.messages ++ [⟨Role.assistant, response⟩]
  match parseAction response with
  | none => (⟨h, m⟩, false, false)
  | some cmd =>
      if asciiLower confirm = "y".data then
        let execution_result := (execute cmd outcome).1
        (⟨h, m ++ [⟨Role.user, "COMMAND OUTPUT:\n".data ++ execution_result⟩]⟩,
          true, true)
      else
        (⟨h, m ++ [⟨Role.user, denialObs⟩]⟩, true, false)

/-- Run the inner cycle over a finite script of external events, one
triple (model response, confirmation input, shell outcome) per
iteration, stopping when an iteration produces no directive or the
script is exhausted. -/
def innerRun (st : InnerState) :
    List (List Char × List Char × ShellOutcome) → InnerState
  | [] => st
  | (r, c, o) :: rest =>
      let step := innerStep st r c o
      if step.2.1 then innerRun step.1 rest else step.1

/-! ## Basic lemmas about substring containment -/

theorem containsSub_of_isPrefixOf (p s : List Char) (h : p.isPrefixOf s = true) :
    containsSub p s = true := by
  cases s <;> simp [containsSub, h]

theorem containsSub_append_left (p : List Char) :
    ∀ (a s : List Char), containsSub p s = true → containsSub p (a ++ s) = true := by
  intro a
  induction a with
  | nil => intro s h; simpa using h
  | cons x a ih =>
      intro s h
      simp only [List.cons_append, containsSub, Bool.or_eq_true]
      exact Or.inr (ih s h)

theorem containsSub_of_prefDrop (p : List Char) :
    ∀ (s : List Char) (m : Nat), p.isPrefixOf (s.drop m) = true →
      containsSub p s = true := by
  intro s
  induction s with
  | nil =>
      intro m h
      rw [List.drop_nil] at h
      simpa [containsSub] using h
  | cons c rest ih =>
      intro m h
      cases m with
      | zero => exact containsSub_of_isPrefixOf _ _ (by simpa using h)
      | succ n =>
          rw [List.drop_succ_cons] at h
          simp only [containsSub, Bool.or_eq_true]
          exact Or.inr (ih n h)

/-- Characterisation of the Context Selector's fold: the output is the
concatenation, in registry order, of `"\n" ++ content ++ "\n"` over
exactly the entries with a matching trigger. -/
theorem get_relevant_context_eq (kb : Registry) (u : List Char) :
    get_relevant_context kb u
      = catAll ((kb.filter
            (fun e => e.2.triggers.any
              (fun t => containsSub t (asciiLower u)))).map
          (fun e => '\n' :: e.2.content ++ ['\n'])) := by
  show List.foldl _ [] kb = _
  have main : ∀ (l : Registry) (acc : List Char),
      List.foldl
        (fun disclosed_text e =>
          if e.2.triggers.any (fun t => containsSub t (asciiLower u)) then
            disclosed_text ++ ('\n' :: e.2.content ++ ['\n'])
          else disclosed_text)
        acc l
      = acc ++ catAll ((l.filter
            (fun e => e.2.triggers.any
              (fun t => containsSub t (asciiLower u)))).map
          (fun e => '\n' :: e.2.content ++ ['\n'])) := by
    intro l
    induction l with
    | nil => intro acc; simp [catAll]
    | cons e l ih =>
        intro acc
        by_cases he : e.2.triggers.any (fun t => containsSub t (asciiLower u)) = true
        · simp only [List.foldl_cons, he, if_true, ih, List.filter_cons, List.map_cons,
            catAll, List.append_assoc]
        · simp only [Bool.not_eq_true] at he
          simp only [List.foldl_cons, he, Bool.false_eq_true, if_false, ih,
            List.filter_cons]
  simpa using main kb []

/-- Lowercasing is the identity on the (already lowercase) registered
triggers, so matching a raw trigger against the lowered input is
exactly case-insensitive matching. -/
theorem bash_any_lower (L : List Char) :
    bashTriggers.any (fun t => containsSub (asciiLower t) L)
      = bashTriggers.any (fun t => containsSub t L) := rfl

/-- C1.  For every user input, the Context Selector includes the
`BashScriptMaster` body exactly when some trigger keyword occurs as a
case-insensitive substring of the input (the body then appearing
exactly once, wrapped in newlines), and the result is the empty
string when no trigger matches. -/
theorem contextSelector_spec (u : List Char) :
    (bashTriggers.any
        (fun t => containsSub (asciiLower t) (asciiLower u)) = true →
      get_relevant_context KNOWLEDGE_BASE u = '\n' :: bashContent ++ ['\n']
        ∧ containsSub bashContent (get_relevant_context KNOWLEDGE_BASE u) = true
        ∧ countOccur bashContent (get_relevant_context KNOWLEDGE_BASE u) = 1)
    ∧ (bashTriggers.any
        (fun t => containsSub (asciiLower t) (asciiLower u)) = false →
      get_relevant_context KNOWLEDGE_BASE u = []
        ∧ containsSub bashContent (get_relevant_context KNOWLEDGE_BASE u) = false) := by
  have hchar := get_relevant_context_eq KNOWLEDGE_BASE u
  rw [bash_any_lower (asciiLower u)]
  constructor
  · intro hm
    have he : get_relevant_context KNOWLEDGE_BASE u = '\n' :: bashContent ++ ['\n'] := by
      rw [hchar]
      show catAll (List.map _ (List.filter _ [_])) = _
      rw [List.filter_cons]
      simp only [show (KNOWLEDGE_BASE.head (by simp [KNOWLEDGE_BASE])).2.triggers = bashTriggers from rfl] at *
      simp [hm, catAll]
    refine ⟨he, ?_, ?_⟩
    · rw [he]; decide
    · rw [he]; decide
  · intro hm
    have he : get_relevant_context KNOWLEDGE_BASE u = [] := by
      rw [hchar]
      show catAll (List.map _ (List.filter _ [_])) = _
      rw [List.filter_cons]
      simp [hm, catAll]
    refine ⟨he, ?_⟩
    rw [he]; decide

/-- Witness for C1: a triggering input disclosing the body, and a
non-triggering input yielding the empty string. -/
theorem contextSelector_spec_witness :
    get_relevant_context KNOWLEDGE_BASE "write me a bash loop".data
        = '\n' :: bashContent ++ ['\n']
      ∧ get_relevant_context KNOWLEDGE_BASE "hello there".data = [] :=
  ⟨((contextSelector_spec "write me a bash loop".data).1 (by decide)).1,
   ((contextSelector_spec "hello there".data).2 (by decide)).1⟩

/-! ## C5: concatenation of several matching entries -/

/-- C5 counterexample: an input matching both entries of a two-entry
registry produces the two bodies wrapped in bare newlines, with
neither entry's name anywhere in the output — so the matched bodies
are not wrapped with a header identifying the entry's name. -/
theorem contextSelector_header_cex :
    2 ≤ (kbTwo.filter
          (fun e => e.2.triggers.any
            (fun t => containsSub t (asciiLower "aa and bb".data)))).length
    ∧ get_relevant_context kbTwo "aa and bb".data = "\nBODYA\n\nBODYB\n".data
    ∧ containsSub "alpha".data (get_relevant_context kbTwo "aa and bb".data) = false
    ∧ containsSub "beta".data (get_relevant_context kbTwo "aa and bb".data) = false := by
  decide

/-- C5 amended.  For every registry and input with at least two
matching entries, the selector concatenates the matching bodies in
registry order, each wrapped in a newline before and after (the
wrapper does not mention the entry's name). -/
theorem contextSelector_order (kb : Registry) (u : List Char)
    (_h : 2 ≤ (kb.filter
          (fun e => e.2.triggers.any
            (fun t => containsSub t (asciiLower u)))).length) :
    get_relevant_context kb u
      = catAll ((kb.filter
            (fun e => e.2.triggers.any
              (fun t => containsSub t (asciiLower u)))).map
          (fun e => '\n' :: e.2.content ++ ['\n'])) :=
  get_relevant_context_eq kb u

/-! ## C3, C4, C8: the Command Executor -/

/-- C3 counterexample: a command exiting zero with the non-empty,
whitespace-only stdout `" \n"` does not get its stdout returned
verbatim — the code tests `output.strip()` and returns the neutral
no-output text instead. -/
theorem executeFormat_cex :
    " \n".data ≠ []
    ∧ (execute "cat file".data (.completed " \n".data [] 0)).1 = noOutputMsg []
    ∧ (execute "cat file".data (.completed " \n".data [] 0)).1 ≠ " \n".data := by
  decide

/-- C3 amended.  For a non-deny-listed command: a non-zero exit code
yields the error text embedding the code and stderr; a zero exit with
whitespace-only stdout (in particular empty stdout) yields the
neutral no-output text carrying stderr as diagnostic; a zero exit
with stdout containing a non-whitespace character yields the stdout
verbatim; and `execute "echo hello"` on the shell outcome
(stdout `"hello\n"`, exit 0) returns `"hello\n"`. -/
theorem executeFormat_spec (cmd stdout stderr : List Char) (code : Int)
    (hd : denyList.any (fun x => containsSub x cmd) = false) :
    (code ≠ 0 →
      (execute cmd (.completed stdout stderr code)).1 = execErrMsg code stderr)
    ∧ (code = 0 → pystrip stdout = [] →
      (execute cmd (.completed stdout stderr code)).1 = noOutputMsg stderr)
    ∧ (code = 0 → pystrip stdout ≠ [] →
      (execute cmd (.completed stdout stderr code)).1 = stdout)
    ∧ execute "echo hello".data (.completed "hello\n".data [] 0)
        = ("hello\n".data, true) := by
  refine ⟨?_, ?_, ?_, by decide⟩
  · intro h; simp [execute, hd, h]
  · intro h hs; simp [execute, hd, h, hs]
  · intro h hs
    have hne : (pystrip stdout).isEmpty = false := by
      simpa [List.isEmpty_iff] using hs
    simp [execute, hd, h, hne]

/-- Witness for C3: the three formatting branches at concrete
outcomes. -/
theorem executeFormat_spec_witness :
    (execute "ls nosuch".data (.completed [] "boom".data 3)).1
        = execErrMsg 3 "boom".data
    ∧ (execute "touch f".data (.completed [] [] 0)).1 = noOutputMsg []
    ∧ (execute "echo hello".data (.completed "hello\n".data [] 0)).1
        = "hello\n".data :=
  ⟨(executeFormat_spec "ls nosuch".data [] "boom".data 3 (by decide)).1 (by decide),
   (executeFormat_spec "touch f".data [] [] 0 (by decide)).2.1 rfl (by decide),
   (executeFormat_spec "echo hello".data "hello\n".data [] 0 (by decide)).2.2.1
     rfl (by decide)⟩

/-- C4.  Every command containing a deny-listed literal is answered
with the blocked text, and the shell is never invoked (the invocation
flag is false: control never reaches `subprocess.run`). -/
theorem denyList_blocks (cmd : List Char) (outcome : ShellOutcome)
    (h : denyList.any (fun x => containsSub x cmd) = true) :
    execute cmd outcome = (blockedMsg, false) := by
  simp [execute, h]

/-- Witness for C4: both deny-listed literals, embedded in larger
commands, are blocked without the shell running. -/
theorem denyList_blocks_witness :
    execute "sudo rm -rf / --no-preserve-root".data .timedOut
        = (blockedMsg, false)
    ∧ execute "echo start; :()\x7b :|:& \x7d;: ; echo done".data
        (.completed "x".data [] 0) = (blockedMsg, false) :=
  ⟨denyList_blocks _ _ (by decide), denyList_blocks _ _ (by decide)⟩

/-- C8.  For a non-deny-listed command, a timeout produces the fixed
timeout text (the call returns rather than hanging: the 30-second
bound is enforced by `subprocess.run`), and that text differs from
the error text of every normal non-zero exit. -/
theorem timeout_distinct (cmd stdout stderr : List Char) (code : Int)
    (hd : denyList.any (fun x => containsSub x cmd) = false) :
    execute cmd .timedOut = (timeoutMsg, true)
    ∧ (code ≠ 0 →
        (execute cmd (.completed stdout stderr code)).1 = execErrMsg code stderr
          ∧ execErrMsg code stderr ≠ timeoutMsg) := by
  refine ⟨by simp [execute, hd], fun h => ⟨by simp [execute, hd, h], ?_⟩⟩
  intro heq
  have h2 := congrArg (fun l => List.take 2 l) heq
  have h3 : List.take 2 (execErrMsg code stderr) = ['E', 'x'] := rfl
  have h4 : List.take 2 timeoutMsg = ['E', 'r'] := rfl
  simp only [h3, h4] at h2
  exact absurd h2 (by decide)

/-- Witness for C8: a timed-out sleep versus an exit-code-1 run. -/
theorem timeout_distinct_witness :
    execute "sleep 100".data .timedOut = (timeoutMsg, true)
    ∧ (execute "false".data (.completed [] [] 1)).1 = execErrMsg 1 []
    ∧ execErrMsg 1 [] ≠ timeoutMsg :=
  ⟨(timeout_distinct "sleep 100".data [] [] 1 (by decide)).1,
   ((timeout_distinct "false".data [] [] 1 (by decide)).2 (by decide)).1,
   ((timeout_distinct "false".data [] [] 1 (by decide)).2 (by decide)).2⟩

/-! ## C9: the model-backend error paths -/

/-- C9 counterexample: a non-2xx status outside [400, 600) — here 304,
which `raise_for_status` does not raise on — with a well-formed body
makes `chat` return the model content, not an error string. -/
theorem chat_non2xx_cex :
    chat (.response 304 "Not Modified".data apiUrl (.valid "hi".data)) = "hi".data
    ∧ containsSub "Error".data
        (chat (.response 304 "Not Modified".data apiUrl (.valid "hi".data))) = false := by
  decide

/-- C9 amended.  A connection failure returns the fixed connection
text; a 4xx/5xx status returns the rendered `HTTPError` text
(whatever the body); a body whose decoding raises, under a non-raising
status, returns the rendered exception text; and the three error
kinds are pairwise distinct at representative instances.  `chat` is a
total function: every outcome yields a returned string, never an
uncaught fault. -/
theorem chat_errors_spec (status : Nat) (reason url excMsg content : List Char)
    (h4 : 400 ≤ status) (h6 : status < 600) :
    chat .connectionFailure = connErrMsg
    ∧ chat (.response status reason url (.valid content))
        = "Error: ".data ++ httpErrStr status reason url
    ∧ chat (.response status reason url (.invalid excMsg))
        = "Error: ".data ++ httpErrStr status reason url
    ∧ (∀ s2 r2 u2, ¬(400 ≤ s2 ∧ s2 < 600) →
        chat (.response s2 r2 u2 (.invalid excMsg)) = "Error: ".data ++ excMsg)
    ∧ chat (.response 404 "Not Found".data apiUrl (.valid content))
        ≠ chat .connectionFailure
    ∧ chat (.response 404 "Not Found".data apiUrl (.valid content))
        ≠ chat (.response 200 "OK".data apiUrl (.invalid jsonDecodeMsg))
    ∧ chat (.response 200 "OK".data apiUrl (.invalid jsonDecodeMsg))
        ≠ chat .connectionFailure := by
  have e1 : chat (.response 404 "Not Found".data apiUrl (.valid content))
      = "Error: ".data ++ httpErrStr 404 "Not Found".data apiUrl := by
    simp [chat]
  refine ⟨rfl, ?_, ?_, ?_, ?_, ?_, by decide⟩
  · simp [chat, h4, h6]
  · simp [chat, h4, h6]
  · intro s2 r2 u2 hno; simp [chat, hno]
  · rw [e1]; decide
  · rw [e1]; decide

/-- Witness for C9: the branches at status 503. -/
theorem chat_errors_spec_witness :
    chat .connectionFailure = connErrMsg
    ∧ chat (.response 503 "Service Unavailable".data apiUrl (.valid "x".data))
        = "Error: ".data ++ httpErrStr 503 "Service Unavailable".data apiUrl
    ∧ chat (.response 200 "OK".data apiUrl (.invalid jsonDecodeMsg))
        = "Error: ".data ++ jsonDecodeMsg :=
  ⟨(chat_errors_spec 503 "Service Unavailable".data apiUrl jsonDecodeMsg "x".data
      (by decide) (by decide)).1,
   (chat_errors_spec 503 "Service Unavailable".data apiUrl jsonDecodeMsg "x".data
      (by decide) (by decide)).2.1,
   (chat_errors_spec 503 "Service Unavailable".data apiUrl jsonDecodeMsg "x".data
      (by decide) (by decide)).2.2.2.1 200 "OK".data apiUrl (by decide)⟩

/-! ## C6, C7, C10: the Session Loop -/

/-- C6.  At the start of every outer turn the working transcript is
rebuilt fresh: the freshly computed system message, then the persisted
history, then the new user message; the system message is the base
persona plus (exactly when this turn's input triggers it) the active
knowledge block; and when this turn's input triggers nothing, the
knowledge body does not occur in the system message at all — in
particular no disclosed context carries over from earlier turns. -/
theorem transcript_fresh (history : List Message) (u : List Char) :
    (turnSetup history u).1
        = ⟨Role.system, currentSystemMessage u⟩ :: (history ++ [⟨Role.user, u⟩])
    ∧ (turnSetup history u).2 = history ++ [⟨Role.user, u⟩]
    ∧ (get_relevant_context KNOWLEDGE_BASE u = [] →
        containsSub bashContent (currentSystemMessage u) = false)
    ∧ (get_relevant_context KNOWLEDGE_BASE u ≠ [] →
        currentSystemMessage u
          = base_system_prompt ++ "\n\n--- ACTIVE KNOWLEDGE ---\n".data
              ++ get_relevant_context KNOWLEDGE_BASE u) := by
  refine ⟨rfl, rfl, ?_, ?_⟩
  · intro h
    have hb : currentSystemMessage u = base_system_prompt := by
      simp [currentSystemMessage, h]
    rw [hb]; decide
  · intro h
    have hne : (get_relevant_context KNOWLEDGE_BASE u).isEmpty = false := by
      simpa [List.isEmpty_iff] using h
    simp [currentSystemMessage, hne, List.append_assoc]

/-- Witness for C6: after a turn whose history already saw the bash
knowledge, a non-triggering input gets a system message without the
knowledge body. -/
theorem transcript_fresh_witness :
    (turnSetup [⟨Role.user, "write me a bash loop".data⟩,
        ⟨Role.assistant, "done".data⟩] "thanks".data).1
      = ⟨Role.system, currentSystemMessage "thanks".data⟩
          :: ([⟨Role.user, "write me a bash loop".data⟩,
                ⟨Role.assistant, "done".data⟩]
              ++ [⟨Role.user, "thanks".data⟩])
    ∧ containsSub bashContent (currentSystemMessage "thanks".data) = false :=
  ⟨(transcript_fresh [⟨Role.user, "write me a bash loop".data⟩,
      ⟨Role.assistant, "done".data⟩] "thanks".data).1,
   (transcript_fresh [⟨Role.user, "write me a bash loop".data⟩,
      ⟨Role.assistant, "done".data⟩] "thanks".data).2.2.1 (by decide)⟩

/-- C7.  When a directive parses and the human's confirmation input
does not lowercase to "y", the executor is not invoked (third
component false — control never reaches `terminal.execute`), the
fixed denial text is appended as a user-role message in place of an
observation, and the inner cycle continues (second component true). -/
theorem denial_no_exec (st : InnerState) (response confirm : List Char)
    (outcome : ShellOutcome) (cmd : List Char)
    (hp : parseAction response = some cmd)
    (hc : asciiLower confirm ≠ "y".data) :
    innerStep st response confirm outcome
      = (⟨st.history ++ [⟨Role.assistant, response⟩],
          st.messages ++ [⟨Role.assistant, response⟩, ⟨Role.user, denialObs⟩]⟩,
         true, false) := by
  simp [innerStep, hp, hc]

/-- Witness for C7: denying an `[[EXEC: rm file]]` directive with
input "n". -/
theorem denial_no_exec_witness :
    innerStep ⟨[], []⟩ "[[EXEC: rm file]]".data "n".data .timedOut
      = (⟨[⟨Role.assistant, "[[EXEC: rm file]]".data⟩],
          [⟨Role.assistant, "[[EXEC: rm file]]".data⟩, ⟨Role.user, denialObs⟩]⟩,
         true, false) := by
  have h := denial_no_exec ⟨[], []⟩ "[[EXEC: rm file]]".data "n".data .timedOut
    "rm file".data (by decide) (by decide)
  simpa using h

/-- In every branch of an inner-cycle iteration, the persisted history
grows by exactly the raw assistant response. -/
theorem innerStep_history (st : InnerState) (r c : List Char) (o : ShellOutcome) :
    (innerStep st r c o).1.history = st.history ++ [⟨Role.assistant, r⟩] := by
  unfold innerStep
  cases hp : parseAction r with
  | none => simp
  | some cmd =>
      by_cases hc : asciiLower c = "y".data <;> simp [hc]

/-- Any number of inner-cycle iterations adds only assistant-role
response messages to the persisted history. -/
theorem innerRun_hist_mem :
    ∀ (script : List (List Char × List Char × ShellOutcome)) (st : InnerState)
      (m : Message), m ∈ (innerRun st script).history →
      m ∈ st.history ∨ ∃ t ∈ script, m = ⟨Role.assistant, t.1⟩ := by
  intro script
  induction script with
  | nil => intro st m hm; exact Or.inl hm
  | cons tr rest ih =>
      intro st m hm
      obtain ⟨r, c, o⟩ := tr
      rw [show innerRun st ((r, c, o) :: rest)
          = (if (innerStep st r c o).2.1 then innerRun (innerStep st r c o).1 rest
             else (innerStep st r c o).1) from rfl] at hm
      have hstep : ∀ m2 : Message, m2 ∈ (innerStep st r c o).1.history →
          m2 ∈ st.history ∨ m2 = ⟨Role.assistant, r⟩ := by
        intro m2 hm2
        rw [innerStep_history] at hm2
        simpa using hm2
      by_cases hco : (innerStep st r c o).2.1 = true
      · rw [if_pos hco] at hm
        rcases ih (innerStep st r c o).1 m hm with h1 | ⟨t, ht, he⟩
        · rcases hstep m h1 with h2 | h2
          · exact Or.inl h2
          · exact Or.inr ⟨(r, c, o), by simp, h2⟩
        · exact Or.inr ⟨t, List.mem_cons_of_mem _ ht, he⟩
      · rw [if_neg hco] at hm
        rcases hstep m hm with h2 | h2
        · exact Or.inl h2
        · exact Or.inr ⟨(r, c, o), by simp, h2⟩

/-- C10.  In every inner-cycle iteration the raw assistant response is
appended to both the persisted history and the working transcript,
while observation and denial messages are appended only to the
working transcript; hence over any run of the inner cycle the
persisted history gains only assistant-role response messages — never
a command-output observation. -/
theorem history_no_observations (st : InnerState) (r c : List Char)
    (o : ShellOutcome) (script : List (List Char × List Char × ShellOutcome))
    (m : Message) :
    (innerStep st r c o).1.history = st.history ++ [⟨Role.assistant, r⟩]
    ∧ (parseAction r = none →
        (innerStep st r c o).1.messages = st.messages ++ [⟨Role.assistant, r⟩])
    ∧ (∀ cmd, parseAction r = some cmd → asciiLower c = "y".data →
        (innerStep st r c o).1.messages
          = st.messages ++ [⟨Role.assistant, r⟩,
              ⟨Role.user, "COMMAND OUTPUT:\n".data ++ (execute cmd o).1⟩])
    ∧ (∀ cmd, parseAction r = some cmd → asciiLower c ≠ "y".data →
        (innerStep st r c o).1.messages
          = st.messages ++ [⟨Role.assistant, r⟩, ⟨Role.user, denialObs⟩])
    ∧ (m ∈ (innerRun st script).history →
        m ∈ st.history ∨ ∃ t ∈ script, m = ⟨Role.assistant, t.1⟩) := by
  refine ⟨innerStep_history st r c o, ?_, ?_, ?_,
    fun hm => innerRun_hist_mem script st m hm⟩
  · intro hp; simp [innerStep, hp]
  · intro cmd hp hc; simp [innerStep, hp, hc]
  · intro cmd hp hc; simp [innerStep, hp, hc]

/-- Witness for C10: a confirmed `[[EXEC: echo hi]]` directive puts
the observation in the transcript only, and a short scripted run adds
only the assistant response to the history. -/
theorem history_no_observations_witness :
    (innerStep ⟨[], []⟩ "[[EXEC: echo hi]]".data "Y".data
        (.completed "hi\n".data [] 0)).1.messages
      = [⟨Role.assistant, "[[EXEC: echo hi]]".data⟩,
         ⟨Role.user, "COMMAND OUTPUT:\n".data ++ "hi\n".data⟩]
    ∧ (innerStep ⟨[], []⟩ "[[EXEC: echo hi]]".data "Y".data
        (.completed "hi\n".data [] 0)).1.history
      = [⟨Role.assistant, "[[EXEC: echo hi]]".data⟩]
    ∧ (⟨Role.assistant, "all done".data⟩
        ∈ (innerRun ⟨[], []⟩ [("all done".data, "n".data, .timedOut)]).history
        → (⟨Role.assistant, "all done".data⟩ : Message) ∈ ([] : List Message)
          ∨ ∃ t ∈ [("all done".data, "n".data, ShellOutcome.timedOut)],
              (⟨Role.assistant, "all done".data⟩ : Message)
                = ⟨Role.assistant, t.1⟩) := by
  have T := history_no_observations ⟨[], []⟩ "[[EXEC: echo hi]]".data "Y".data
    (.completed "hi\n".data [] 0) [("all done".data, "n".data, .timedOut)]
    ⟨Role.assistant, "all done".data⟩
  refine ⟨?_, ?_, T.2.2.2.2⟩
  · have h := T.2.2.1 "echo hi".data (by decide) (by decide)
    have hx : (execute "echo hi".data (.completed "hi\n".data [] 0)).1
        = "hi\n".data := by decide
    rw [hx] at h
    simpa using h
  · simpa using T.1

/-- Witness for C5: the two-entry registry on a doubly matching
input. -/
theorem contextSelector_order_witness :
    get_relevant_context kbTwo "aa and bb".data
      = catAll ((kbTwo.filter
            (fun e => e.2.triggers.any
              (fun t => containsSub t (asciiLower "aa and bb".data)))).map
          (fun e => '\n' :: e.2.content ++ ['\n'])) :=
  contextSelector_order kbTwo "aa and bb".data (by decide)

/-! ## C2: correctness of the action-directive search

Helper lemmas about `dropWhile`, prefixes, and the pattern pieces
`trailingMatch`, `lazyGrab`, `matchAfter`, `findExec`. -/

theorem dropWhile_allP {α : Type} (p : α → Bool) :
    ∀ l : List α, (∀ x ∈ l, p x = true) → l.dropWhile p = [] := by
  intro l
  induction l with
  | nil => intro _; rfl
  | cons a t ih =>
      intro h
      rw [List.dropWhile_cons, if_pos (h a (List.mem_cons_self a t))]
      exact ih (fun x hx => h x (List.mem_cons_of_mem a hx))

theorem allP_of_dropWhile_eq_nil {α : Type} (p : α → Bool) :
    ∀ l : List α, l.dropWhile p = [] → ∀ x ∈ l, p x = true := by
  intro l
  induction l with
  | nil => intro _ x hx; simp at hx
  | cons a t ih =>
      intro h x hx
      rw [List.dropWhile_cons] at h
      by_cases hpa : p a = true
      · rw [if_pos hpa] at h
        rcases List.mem_cons.1 hx with rfl | hx
        · exact hpa
        · exact ih h x hx
      · rw [if_neg hpa] at h
        simp at h
  
theorem dropWhile_append_of_ne {α : Type} (p : α → Bool) :
    ∀ l1 l2 : List α, l1.dropWhile p ≠ [] →
      (l1 ++ l2).dropWhile p = l1.dropWhile p ++ l2 := by
  intro l1
  induction l1 with
  | nil => intro l2 h; exact absurd rfl h
  | cons a t ih =>
      intro l2 h
      rw [List.dropWhile_cons] at h
      rw [List.cons_append, List.dropWhile_cons, List.dropWhile_cons]
      by_cases hpa : p a = true
      · rw [if_pos hpa] at h ⊢
        rw [if_pos hpa]
        exact ih l2 h
      · rw [if_neg hpa, if_neg hpa, List.cons_append]

theorem dropWhile_append_of_all {α : Type} (p : α → Bool) :
    ∀ l1 l2 : List α, (∀ x ∈ l1, p x = true) →
      (l1 ++ l2).dropWhile p = l2.dropWhile p := by
  intro l1
  induction l1 with
  | nil => intro l2 _; rfl
  | cons a t ih =>
      intro l2 h
      rw [List.cons_append, List.dropWhile_cons,
        if_pos (h a (List.mem_cons_self a t))]
      exact ih l2 (fun x hx => h x (List.mem_cons_of_mem a hx))

theorem dropWhile_head_false {α : Type} (p : α → Bool) :
    ∀ l : List α, l.dropWhile p = [] ∨
      ∃ a t, l.dropWhile p = a :: t ∧ p a = false := by
  intro l
  induction l with
  | nil => exact Or.inl rfl
  | cons a t ih =>
      by_cases hpa : p a = true
      · rw [show (a :: t).dropWhile p = t.dropWhile p from by
          rw [List.dropWhile_cons, if_pos hpa]]
        exact ih
      · refine Or.inr ⟨a, t, ?_, ?_⟩
        · rw [List.dropWhile_cons, if_neg hpa]
        · simpa using hpa

theorem dropWhile_dropWhile {α : Type} (p : α → Bool) (l : List α) :
    (l.dropWhile p).dropWhile p = l.dropWhile p := by
  rcases dropWhile_head_false p l with h | ⟨a, t, h, hpa⟩
  · rw [h]; rfl
  · rw [h, List.dropWhile_cons, if_neg (by simp [hpa])]

theorem isPrefixOf_append_self : ∀ (l t : List Char), l.isPrefixOf (l ++ t) = true := by
  intro l t
  induction l with
  | nil => simp [List.isPrefixOf]
  | cons a l ih => simp [List.cons_append, List.isPrefixOf, ih]

theorem stripTrailing_idem (l : List Char) :
    stripTrailing (stripTrailing l) = stripTrailing l := by
  unfold stripTrailing
  rw [List.reverse_reverse, dropWhile_dropWhile]

theorem allWs_stripTrailing : ∀ w : List Char,
    (∀ x ∈ w, isSpaceP x = true) → stripTrailing w = [] := by
  intro w h
  unfold stripTrailing
  rw [dropWhile_allP isSpaceP w.reverse (fun x hx => h x (List.mem_reverse.1 hx))]
  rfl

theorem stripTrailing_cons (x : Char) (l : List Char)
    (h : ¬ ∀ y ∈ x :: l, isSpaceP y = true) :
    stripTrailing (x :: l) = x :: stripTrailing l := by
  unfold stripTrailing
  rw [List.reverse_cons]
  by_cases hall : ∀ y ∈ l, isSpaceP y = true
  · have hx : isSpaceP x = false := by
      by_contra hx
      rw [Bool.not_eq_false] at hx
      exact h (fun y hy => by
        rcases List.mem_cons.1 hy with rfl | hy
        · exact hx
        · exact hall y hy)
    have h1 : List.dropWhile isSpaceP l.reverse = [] :=
      dropWhile_allP _ _ (fun y hy => hall y (List.mem_reverse.1 hy))
    rw [dropWhile_append_of_all isSpaceP l.reverse [x]
      (fun y hy => hall y (List.mem_reverse.1 hy))]
    rw [show List.dropWhile isSpaceP [x] = [x] from by
      rw [List.dropWhile_cons, if_neg (by simp [hx])]]
    rw [h1]
    rfl
  · have hne : l.reverse.dropWhile isSpaceP ≠ [] := by
      intro hnil
      exact hall (fun y hy =>
        allP_of_dropWhile_eq_nil isSpaceP l.reverse hnil y (List.mem_reverse.2 hy))
    rw [dropWhile_append_of_ne isSpaceP l.reverse [x] hne]
    rw [List.reverse_append]
    rfl

theorem pystrip_idem : ∀ b : List Char, pystrip (pystrip b) = pystrip b := by
  intro b
  unfold pystrip
  rcases dropWhile_head_false isSpaceP b with h0 | ⟨a, t, h0, hpa⟩
  · rw [h0]
    rfl
  · rw [h0]
    have hnall : ¬ ∀ y ∈ a :: t, isSpaceP y = true := fun hall => by
      simpa [hpa] using hall a (List.mem_cons_self a t)
    rw [stripTrailing_cons a t hnall]
    rw [List.dropWhile_cons, if_neg (by simp [hpa])]
    rw [stripTrailing_cons a (stripTrailing t) (fun hall2 => by
      simpa [hpa] using hall2 a (List.mem_cons_self a (stripTrailing t)))]
    rw [stripTrailing_idem t]

theorem trailingMatch_ws_close :
    ∀ (w c : List Char), (∀ x ∈ w, isSpaceP x = true) →
      trailingMatch (w ++ (closeMark ++ c)) = true := by
  intro w
  induction w with
  | nil =>
      intro c _
      rw [List.nil_append, show closeMark ++ c = ']' :: (']' :: c) from rfl]
      rw [show trailingMatch (']' :: (']' :: c))
          = (closeMark.isPrefixOf (']' :: (']' :: c))
              || (isSpaceP ']' && trailingMatch (']' :: c))) from rfl]
      rw [show closeMark.isPrefixOf (']' :: (']' :: c)) = true from
        isPrefixOf_append_self closeMark c]
      rfl
  | cons a w ih =>
      intro c h
      rw [List.cons_append]
      rw [show trailingMatch (a :: (w ++ (closeMark ++ c)))
          = (closeMark.isPrefixOf (a :: (w ++ (closeMark ++ c)))
              || (isSpaceP a && trailingMatch (w ++ (closeMark ++ c)))) from rfl]
      rw [h a (List.mem_cons_self a w),
        ih c (fun x hx => h x (List.mem_cons_of_mem a hx))]
      simp

theorem trailingMatch_sound :
    ∀ v : List Char, trailingMatch v = true →
      ∃ m, (∀ x ∈ v.take m, isSpaceP x = true)
        ∧ closeMark.isPrefixOf (v.drop m) = true := by
  intro v
  induction v with
  | nil => intro h; simp [trailingMatch] at h
  | cons a t ih =>
      intro h
      rw [show trailingMatch (a :: t)
          = (closeMark.isPrefixOf (a :: t) || (isSpaceP a && trailingMatch t)) from rfl] at h
      rcases Bool.or_eq_true_iff.1 h with h1 | h2
      · exact ⟨0, by simp, by simpa using h1⟩
      · rw [Bool.and_eq_true] at h2
        obtain ⟨ha, ht⟩ := h2
        obtain ⟨m, hm1, hm2⟩ := ih ht
        refine ⟨m + 1, ?_, by simpa [List.drop_succ_cons] using hm2⟩
        intro x hx
        rw [List.take_succ_cons] at hx
        rcases List.mem_cons.1 hx with rfl | hx
        · exact ha
        · exact hm1 x hx

theorem containsSub_close_of_trailing (v : List Char)
    (h : trailingMatch v = true) : containsSub closeMark v = true := by
  obtain ⟨m, _, hm⟩ := trailingMatch_sound v h
  exact containsSub_of_prefDrop _ v m hm

theorem lazyGrab_sound : ∀ (u p : List Char), lazyGrab u = some p →
    containsSub closeMark u = true := by
  intro u
  induction u with
  | nil => intro p h; simp [lazyGrab] at h
  | cons a t ih =>
      intro p h
      by_cases ht : trailingMatch (a :: t) = true
      · exact containsSub_close_of_trailing _ ht
      · rw [show lazyGrab (a :: t)
            = (if trailingMatch (a :: t) then some []
               else (lazyGrab t).map (fun q => a :: q)) from rfl,
          if_neg ht] at h
        cases hq : lazyGrab t with
        | none => rw [hq] at h; simp at h
        | some q =>
            have hc := ih q hq
            rw [show containsSub closeMark (a :: t)
                = (closeMark.isPrefixOf (a :: t) || containsSub closeMark t) from rfl]
            rw [hc]
            simp

theorem matchAfter_sound (t p : List Char) (h : matchAfter t = some p) :
    containsSub closeMark t = true := by
  have h1 := lazyGrab_sound _ _ h
  have h2 : t.takeWhile isSpaceP ++ t.dropWhile isSpaceP = t :=
    List.takeWhile_append_dropWhile _ _
  rw [← h2]
  exact containsSub_append_left _ _ _ h1

theorem findExec_none : ∀ s : List Char, hasMarkerPair s = false →
    findExec s = none := by
  intro s
  induction s with
  | nil => intro _; rfl
  | cons a t ih =>
      intro h
      rw [show hasMarkerPair (a :: t)
          = ((execMark.isPrefixOf (a :: t)
              && containsSub closeMark (List.drop 7 (a :: t)))
            || hasMarkerPair t) from rfl] at h
      rw [Bool.or_eq_false_iff] at h
      obtain ⟨h1, h2⟩ := h
      have hrest := ih h2
      rw [show findExec (a :: t)
          = (if execMark.isPrefixOf (a :: t) then
              (match matchAfter (List.drop 7 (a :: t)) with
               | some p => some p
               | none => findExec t)
            else findExec t) from rfl]
      by_cases hpre : execMark.isPrefixOf (a :: t) = true
      · rw [if_pos hpre]
        rw [hpre] at h1
        simp only [Bool.true_and] at h1
        cases hma : matchAfter (List.drop 7 (a :: t)) with
        | none => simp only [hma]; exact hrest
        | some p => exact absurd h1 (by rw [matchAfter_sound _ _ hma]; simp)
      · rw [if_neg hpre]
        exact hrest

theorem findExec_skip : ∀ (a z : List Char),
    (∀ i, i < a.length → execMark.isPrefixOf ((a ++ z).drop i) = false) →
    findExec (a ++ z) = findExec z := by
  intro a
  induction a with
  | nil => intro z _; rfl
  | cons x a ih =>
      intro z h
      rw [List.cons_append]
      have h0 : execMark.isPrefixOf (x :: (a ++ z)) = false := by
        have := h 0 (by simp)
        simpa using this
      rw [show findExec (x :: (a ++ z))
          = (if execMark.isPrefixOf (x :: (a ++ z)) then
              (match matchAfter (List.drop 7 (x :: (a ++ z))) with
               | some p => some p
               | none => findExec (a ++ z))
            else findExec (a ++ z)) from rfl,
        if_neg (by simp [h0])]
      refine ih z (fun i hi => ?_)
      have := h (i + 1) (by simpa using Nat.succ_lt_succ hi)
      simpa [List.drop_succ_cons] using this

theorem findExec_at_exec (t p : List Char) (h : matchAfter t = some p) :
    findExec (execMark ++ t) = some p := by
  rw [show execMark ++ t = '[' :: '[' :: 'E' :: 'X' :: 'E' :: 'C' :: ':' :: t from rfl]
  rw [show findExec ('[' :: '[' :: 'E' :: 'X' :: 'E' :: 'C' :: ':' :: t)
      = (if execMark.isPrefixOf ('[' :: '[' :: 'E' :: 'X' :: 'E' :: 'C' :: ':' :: t) then
          (match matchAfter (List.drop 7 ('[' :: '[' :: 'E' :: 'X' :: 'E' :: 'C' :: ':' :: t)) with
           | some q => some q
           | none => findExec ('[' :: 'E' :: 'X' :: 'E' :: 'C' :: ':' :: t))
        else findExec ('[' :: 'E' :: 'X' :: 'E' :: 'C' :: ':' :: t)) from rfl]
  rw [if_pos (show execMark.isPrefixOf ('[' :: '[' :: 'E' :: 'X' :: 'E' :: 'C' :: ':' :: t) = true from
    isPrefixOf_append_self execMark t)]
  rw [show List.drop 7 ('[' :: '[' :: 'E' :: 'X' :: 'E' :: 'C' :: ':' :: t) = t from rfl, h]

theorem trailingMatch_allWs :
    ∀ (b c : List Char), trailingMatch (b ++ (closeMark ++ c)) = true →
      containsSub closeMark (b ++ [']']) = false →
      ∀ x ∈ b, isSpaceP x = true := by
  intro b
  induction b with
  | nil => intro c _ _ x hx; simp at hx
  | cons a t ih =>
      intro c htm hcs x hx
      rw [List.cons_append] at htm
      rw [show trailingMatch (a :: (t ++ (closeMark ++ c)))
          = (closeMark.isPrefixOf (a :: (t ++ (closeMark ++ c)))
              || (isSpaceP a && trailingMatch (t ++ (closeMark ++ c)))) from rfl] at htm
      rcases Bool.or_eq_true_iff.1 htm with h1 | h2
      · exfalso
        cases t with
        | nil =>
            have ha : a = ']' := by
              rw [show closeMark = [']', ']'] from rfl] at h1
              simp [List.isPrefixOf] at h1
              exact h1.symm
            subst ha
            exact absurd hcs (by decide)
        | cons y r =>
            have hay : a = ']' ∧ y = ']' := by
              rw [show closeMark = [']', ']'] from rfl] at h1
              rw [List.cons_append] at h1
              simp [List.isPrefixOf] at h1
              exact ⟨h1.1.symm, h1.2.symm⟩
            obtain ⟨ha, hy⟩ := hay
            subst ha
            subst hy
            have hctr : containsSub closeMark ((']' :: ']' :: r) ++ [']']) = true := by
              apply containsSub_of_isPrefixOf
              rw [show closeMark = [']', ']'] from rfl]
              rw [List.cons_append, List.cons_append]
              simp [List.isPrefixOf]
            rw [hctr] at hcs
            simp at hcs
      · rw [Bool.and_eq_true] at h2
        obtain ⟨ha, ht⟩ := h2
        have hcs2 : containsSub closeMark (t ++ [']']) = false := by
          rw [List.cons_append] at hcs
          rw [show containsSub closeMark (a :: (t ++ [']']))
              = (closeMark.isPrefixOf (a :: (t ++ [']']))
                  || containsSub closeMark (t ++ [']'])) from rfl] at hcs
          exact (Bool.or_eq_false_iff.1 hcs).2
        rcases List.mem_cons.1 hx with rfl | hx
        · exact ha
        · exact ih c ht hcs2 x hx

theorem lazyGrab_close : ∀ (b1 c : List Char),
    containsSub closeMark (b1 ++ [']']) = false →
    lazyGrab (b1 ++ (closeMark ++ c)) = some (stripTrailing b1) := by
  intro b1
  induction b1 with
  | nil =>
      intro c _
      rw [List.nil_append, show closeMark ++ c = ']' :: (']' :: c) from rfl]
      rw [show lazyGrab (']' :: (']' :: c))
          = (if trailingMatch (']' :: (']' :: c)) then some []
             else (lazyGrab (']' :: c)).map (fun p => ']' :: p)) from rfl]
      rw [if_pos (show trailingMatch (']' :: (']' :: c)) = true from
        trailingMatch_ws_close [] c (by simp))]
      rfl
  | cons x t ih =>
      intro c h
      have h2 : containsSub closeMark (t ++ [']']) = false := by
        rw [List.cons_append] at h
        rw [show containsSub closeMark (x :: (t ++ [']']))
            = (closeMark.isPrefixOf (x :: (t ++ [']']))
                || containsSub closeMark (t ++ [']'])) from rfl] at h
        exact (Bool.or_eq_false_iff.1 h).2
      rw [List.cons_append]
      by_cases htm : trailingMatch (x :: (t ++ (closeMark ++ c))) = true
      · have hall : ∀ y ∈ x :: t, isSpaceP y = true := by
          have := trailingMatch_allWs (x :: t) c (by rwa [List.cons_append]) h
          exact this
        rw [show lazyGrab (x :: (t ++ (closeMark ++ c)))
            = (if trailingMatch (x :: (t ++ (closeMark ++ c))) then some []
               else (lazyGrab (t ++ (closeMark ++ c))).map (fun p => x :: p)) from rfl,
          if_pos htm]
        rw [allWs_stripTrailing (x :: t) hall]
      · have hnall : ¬ ∀ y ∈ x :: t, isSpaceP y = true := by
          intro hall
          exact htm (by
            have := trailingMatch_ws_close (x :: t) c hall
            rwa [List.cons_append] at this)
        rw [show lazyGrab (x :: (t ++ (closeMark ++ c)))
            = (if trailingMatch (x :: (t ++ (closeMark ++ c))) then some []
               else (lazyGrab (t ++ (closeMark ++ c))).map (fun p => x :: p)) from rfl,
          if_neg htm]
        rw [ih c h2]
        rw [stripTrailing_cons x t hnall]
        rfl

theorem matchAfter_close (b c : List Char)
    (h : containsSub closeMark (b ++ [']']) = false) :
    matchAfter (b ++ (closeMark ++ c)) = some (pystrip b) := by
  unfold matchAfter
  have hsplit : (b ++ (closeMark ++ c)).dropWhile isSpaceP
      = b.dropWhile isSpaceP ++ (closeMark ++ c) := by
    rcases dropWhile_head_false isSpaceP b with hb | ⟨a, t, hb, hpa⟩
    · rw [dropWhile_append_of_all isSpaceP b _
        (allP_of_dropWhile_eq_nil isSpaceP b hb), hb, List.nil_append]
      rw [show closeMark ++ c = ']' :: (']' :: c) from rfl]
      rw [List.dropWhile_cons, if_neg (by decide)]
    · rw [dropWhile_append_of_ne isSpaceP b _ (by rw [hb]; simp)]
  rw [hsplit]
  have hb1 : containsSub closeMark (b.dropWhile isSpaceP ++ [']']) = false := by
    by_contra hcon
    rw [Bool.not_eq_false] at hcon
    have hup : containsSub closeMark (b ++ [']']) = true := by
      have e : b ++ [']'] = b.takeWhile isSpaceP ++ (b.dropWhile isSpaceP ++ [']']) := by
        rw [← List.append_assoc, List.takeWhile_append_dropWhile]
      rw [e]
      exact containsSub_append_left _ _ _ hcon
    rw [hup] at h
    simp at h
  exact lazyGrab_close _ c hb1

/-- C2.  The action parser returns no directive when the text has no
well-formed `[[EXEC: ...]]` marker pair (no opening marker followed by
a closing marker — in particular on unterminated or missing markers);
and on a text decomposing as `a ++ "[[EXEC:" ++ b ++ "]]" ++ c`, where
no opening marker starts inside `a` (first-match) and no closing
marker occurs before the shown one, it returns the payload `b` with
surrounding whitespace trimmed — whatever `c` holds, so when a second
marker pair follows in `c`, only the first pair's payload is
returned. -/
theorem actionParser_spec (s a b c : List Char)
    (h1 : ∀ i, i < a.length →
      execMark.isPrefixOf ((a ++ (execMark ++ (b ++ (closeMark ++ c)))).drop i) = false)
    (h2 : containsSub closeMark (b ++ [']']) = false) :
    (hasMarkerPair s = false → parseAction s = none)
    ∧ parseAction (a ++ (execMark ++ (b ++ (closeMark ++ c)))) = some (pystrip b) := by
  constructor
  · intro hs
    unfold parseAction
    rw [findExec_none s hs]
    rfl
  · unfold parseAction
    rw [findExec_skip a _ h1]
    rw [findExec_at_exec (b ++ (closeMark ++ c)) (pystrip b) (matchAfter_close b c h2)]
    simp [pystrip_idem]

/-- Witness for C2: a marker-free text parses to none; a text with two
marker pairs parses to the first payload, trimmed. -/
theorem actionParser_spec_witness :
    parseAction "just words, no directive".data = none
    ∧ parseAction "Thought: [[EXEC: ls -la ]] then [[EXEC: pwd]]".data
        = some "ls -la".data := by
  have T := actionParser_spec "just words, no directive".data
    "Thought: ".data " ls -la ".data " then [[EXEC: pwd]]".data
    (by decide) (by decide)
  refine ⟨T.1 (by decide), ?_⟩
  have e : "Thought: [[EXEC: ls -la ]] then [[EXEC: pwd]]".data
      = "Thought: ".data ++ (execMark ++ (" ls -la ".data
          ++ (closeMark ++ " then [[EXEC: pwd]]".data))) := rfl
  rw [e, T.2]
  decide
